import Mathlib

set_option maxRecDepth 16384

/-!
Verification of the UTF-T to UTF-8 transcoder (pgutft.c, function utft_to_utf8).

The core loop of the C function is embedded shallowly: the input bytea is a
list of byte values, the output buffer is the list of emitted byte values
(buffer growth by repalloc is memory management with no effect on the byte
sequence, so it is not modelled), the input cursor indexT is an explicit
index, and the unsigned long arithmetic on the code point is Nat arithmetic
taken modulo 2 ^ 64 exactly where the C value can exceed the type range
(the reference platform is LP64 Linux, so unsigned long has 64 bits).
-/

namespace UTFT

/-- Encoding of one code point c into UTF-8 bytes, exactly as in the branch
chain of pgutft.c lines 98 to 119: the same boundary tests (c < 0x7F,
c < 0x07FF, c < 0xFFFF) and the same mask and shift expressions, including
the masks of the 4-byte branch as written in the source. -/
def utf8Encode (c : Nat) : List Nat :=
  if c < 0x7F then
    [c]
  else if c < 0x07FF then
    [0xC0 ||| ((c &&& 0x7C0) >>> 6),
     (0x02 <<< 6) ||| (c &&& 0x3F)]
  else if c < 0xFFFF then
    [0xE0 ||| ((c &&& 0xF000) >>> 12),
     (0x02 <<< 6) ||| ((c &&& 0xFC0) >>> 6),
     (0x02 <<< 6) ||| (c &&& 0x3F)]
  else
    [0xF0 ||| ((c &&& 0xF000) >>> 18),
     (0x02 <<< 6) ||| ((c &&& 0x3F00) >>> 12),
     (0x02 <<< 6) ||| ((c &&& 0xFC0) >>> 6),
     (0x02 <<< 6) ||| (c &&& 0x3F)]

/-- Payload of a sentinel unit: the expression
(b3 and 127) or ((b2 and 127) shl 7) or ((b1 and 127) shl 14)
of pgutft.c line 96, before the subtraction of 0x0F0000. -/
def utftPayload (b1 b2 b3 : Nat) : Nat :=
  (b3 &&& 127) ||| ((b2 &&& 127) <<< 7) ||| ((b1 &&& 127) <<< 14)

/-- One iteration of the scanning loop of pgutft.c lines 83 to 139, at input
cursor i: returns the list of bytes appended to the output buffer and the
amount added to indexT. Out of range reads of vl_dat are modelled by getD
with default 0. The C expression payload - 0x0F0000UL is computed in
unsigned long, so it is embedded as addition of 2 ^ 64 - 0x0F0000 followed
by reduction modulo 2 ^ 64. -/
def utftStep (input : List Nat) (i : Nat) : List Nat × Nat :=
  let b := input.getD i 0
  if b = 0x9B then
    let b1 := input.getD (i + 1) 0
    let b2 := input.getD (i + 2) 0
    let b3 := input.getD (i + 3) 0
    let c := (utftPayload b1 b2 b3 + (2 ^ 64 - 0x0F0000)) % 2 ^ 64
    (utf8Encode c, 4)
  else if b &&& (1 <<< 7) ≠ 0 then
    let c := b
    ([0xC0 ||| ((c &&& 0x7C0) >>> 6),
      (0x02 <<< 6) ||| (c &&& 0x3F)], 2)
  else
    ([input.getD i 0], 1)

/-- Code point view of one loop iteration: the value of the local variable c
(for the single byte branch, the byte b that is written out directly) and
the cursor advance, for each of the three branches of pgutft.c. -/
def utftDecodeCP (input : List Nat) (i : Nat) : Nat × Nat :=
  let b := input.getD i 0
  if b = 0x9B then
    ((utftPayload (input.getD (i + 1) 0) (input.getD (i + 2) 0) (input.getD (i + 3) 0)
        + (2 ^ 64 - 0x0F0000)) % 2 ^ 64, 4)
  else if b &&& (1 <<< 7) ≠ 0 then
    (b, 2)
  else
    (b, 1)

/-- Fuel indexed driver of the scanning loop: while i < maxT, perform one
step and continue at i plus the step advance, collecting the emitted bytes.
The fuel only makes the recursion structural; fuel = input.length is always
enough because every step advances the cursor by at least 1. -/
def utftLoopF : Nat → List Nat → Nat → List Nat
  | 0, _, _ => []
  | fuel + 1, input, i =>
    if i < input.length then
      (utftStep input i).1 ++ utftLoopF fuel input (i + (utftStep input i).2)
    else
      []

/-- Final value of the input cursor indexT when the loop exits, fuel indexed
like utftLoopF. -/
def utftFinalF : Nat → List Nat → Nat → Nat
  | 0, _, i => i
  | fuel + 1, input, i =>
    if i < input.length then
      utftFinalF fuel input (i + (utftStep input i).2)
    else
      i

/-- List of the cursor positions at which loop iterations start, fuel
indexed like utftLoopF. -/
def utftTraceF : Nat → List Nat → Nat → List Nat
  | 0, _, _ => []
  | fuel + 1, input, i =>
    if i < input.length then
      i :: utftTraceF fuel input (i + (utftStep input i).2)
    else
      []

/-- Embedding of utft_to_utf8: the byte content of the returned text value,
namely the output buffer truncated to its used length. -/
def utft_to_utf8 (input : List Nat) : List Nat :=
  utftLoopF input.length input 0

/-- Final cursor value of a full run of utft_to_utf8. -/
def utftFinal (input : List Nat) : Nat :=
  utftFinalF input.length input 0

/-- Cursor positions visited by a full run of utft_to_utf8. -/
def utftTrace (input : List Nat) : List Nat :=
  utftTraceF input.length input 0

/-- Spec form of the 4-byte UTF-8 encoding, following the words of the spec
table row for c at least 0xFFFF: pattern 11110xxx 10xxxxxx 10xxxxxx
10xxxxxx with payload bits 20..18, 17..12, 11..6 and 5..0 of c. Stated for
comparison with the 4-byte branch of utf8Encode. -/
def utf8Encode4Spec (c : Nat) : List Nat :=
  [0xF0 ||| ((c >>> 18) &&& 0x07),
   0x80 ||| ((c >>> 12) &&& 0x3F),
   0x80 ||| ((c >>> 6) &&& 0x3F),
   0x80 ||| (c &&& 0x3F)]

/-- Modelled from the spec: the UTF-T encoder is not implemented in the
repository (the spec calls it definable from the scheme). ASCII code points
become a single byte; every other code point becomes a 4-byte unit led by
the sentinel 0x9B whose three following bytes carry the 21 bits of
c + 0x0F0000 in their low 7 bits each, with the high bit set as in the
worked examples. -/
def utftEncode (c : Nat) : List Nat :=
  if c < 0x80 then
    [c]
  else
    [0x9B,
     0x80 ||| (((c + 0x0F0000) >>> 14) &&& 0x7F),
     0x80 ||| (((c + 0x0F0000) >>> 7) &&& 0x7F),
     0x80 ||| ((c + 0x0F0000) &&& 0x7F)]

/-- Disjoint bitwise or is addition: when a occupies only the k low bits,
oring it with a multiple of 2 to the k is the same as adding. -/
theorem mul_pow_lor_eq_add (k : Nat) : ∀ b a : Nat, a < 2 ^ k → (b * 2 ^ k) ||| a = b * 2 ^ k + a := by
  induction k with
  | zero =>
    intro b a h
    have ha : a = 0 := by omega
    subst ha
    simp
  | succ k ih =>
    intro b a h
    have hx : b * 2 ^ (k + 1) = 2 * (b * 2 ^ k) := by ring
    have hsmall : a / 2 < 2 ^ k := by
      have h2 : 2 ^ (k + 1) = 2 ^ k * 2 := by rw [Nat.pow_succ]
      omega
    have hih := ih b (a / 2) hsmall
    have hdiv : (b * 2 ^ (k + 1) ||| a) / 2 = (b * 2 ^ k) ||| (a / 2) := by
      rw [Nat.or_div_two, hx, Nat.mul_div_cancel_left _ (by norm_num : (0:Nat) < 2)]
    have hmod0 : (b * 2 ^ (k + 1)) % 2 = 0 := by
      rw [hx]
      exact Nat.mul_mod_right 2 _
    have hiff : (b * 2 ^ (k + 1) ||| a) % 2 = 1 ↔ (b * 2 ^ (k + 1)) % 2 = 1 ∨ a % 2 = 1 :=
      Nat.or_mod_two_eq_one
    have hm : (b * 2 ^ (k + 1) ||| a) % 2 = a % 2 := by
      rcases Nat.mod_two_eq_zero_or_one a with h2 | h2
      · rcases Nat.mod_two_eq_zero_or_one (b * 2 ^ (k + 1) ||| a) with h1 | h1
        · rw [h1, h2]
        · rcases hiff.mp h1 with h3 | h3
          · rw [hmod0] at h3
            exact absurd h3 (by norm_num)
          · rw [h2] at h3
            exact absurd h3 (by norm_num)
      · rw [hiff.mpr (Or.inr h2), h2]
    have hsplit := Nat.div_add_mod (b * 2 ^ (k + 1) ||| a) 2
    rw [hdiv, hih, hm] at hsplit
    omega

/-- Literal instance of disjoint or for the 7 bit field. -/
theorem mul128_lor {x a : Nat} (h : a < 128) : (x * 128) ||| a = x * 128 + a := by
  have h2 : (128 : Nat) = 2 ^ 7 := by norm_num
  rw [h2] at h ⊢
  exact mul_pow_lor_eq_add 7 x a h

/-- Literal instance of disjoint or for the 14 bit field. -/
theorem mul16384_lor {x a : Nat} (h : a < 16384) : (x * 16384) ||| a = x * 16384 + a := by
  have h2 : (16384 : Nat) = 2 ^ 14 := by norm_num
  rw [h2] at h ⊢
  exact mul_pow_lor_eq_add 14 x a h

/-- Masking with 127 is reduction modulo 128. -/
theorem and_127_eq_mod (x : Nat) : x &&& 127 = x % 128 := by
  have h : (127 : Nat) = 2 ^ 7 - 1 := by norm_num
  rw [h, Nat.and_pow_two_sub_one_eq_mod]

/-- Arithmetic form of the sentinel unit payload: the three 7 bit fields are
disjoint, so the ors of pgutft.c line 96 add up. -/
theorem utftPayload_eq (b1 b2 b3 : Nat) :
    utftPayload b1 b2 b3 = (b1 &&& 127) * 16384 + (b2 &&& 127) * 128 + (b3 &&& 127) := by
  unfold utftPayload
  rw [Nat.shiftLeft_eq, Nat.shiftLeft_eq]
  have e7 : (2:Nat) ^ 7 = 128 := by norm_num
  have e14 : (2:Nat) ^ 14 = 16384 := by norm_num
  rw [e7, e14]
  have hb3 : b3 &&& 127 < 128 := by
    have := @Nat.and_le_right b3 127
    omega
  have hb2 : b2 &&& 127 ≤ 127 := @Nat.and_le_right b2 127
  rw [Nat.lor_comm (b3 &&& 127), mul128_lor hb3, Nat.lor_comm,
    mul16384_lor (by omega : (b2 &&& 127) * 128 + (b3 &&& 127) < 16384)]
  omega

/-- Payload values fit in 21 bits. -/
theorem utftPayload_lt (b1 b2 b3 : Nat) : utftPayload b1 b2 b3 < 0x200000 := by
  rw [utftPayload_eq]
  have h1 := @Nat.and_le_right b1 127
  have h2 := @Nat.and_le_right b2 127
  have h3 := @Nat.and_le_right b3 127
  omega

/-- Every loop iteration advances the cursor by 1, 2 or 4. -/
theorem utftStep_adv (input : List Nat) (i : Nat) :
    (utftStep input i).2 = 1 ∨ (utftStep input i).2 = 2 ∨ (utftStep input i).2 = 4 := by
  simp only [utftStep]
  split
  · simp
  · split <;> simp

/-- Stopped runs of the final cursor: at or past the end of the input the
cursor no longer moves. -/
theorem utftFinalF_stop (fuel : Nat) (input : List Nat) (i : Nat) (h : ¬ i < input.length) :
    utftFinalF fuel input i = i := by
  cases fuel <;> simp [utftFinalF, h]

/-- Runs with enough fuel drive the cursor to at least the input length. -/
theorem utftFinalF_ge : ∀ (fuel : Nat) (input : List Nat) (i : Nat),
    input.length - i ≤ fuel → input.length ≤ utftFinalF fuel input i := by
  intro fuel
  induction fuel with
  | zero =>
    intro input i h
    simp only [utftFinalF]
    omega
  | succ f ih =>
    intro input i h
    by_cases hlt : i < input.length
    · have hadv := utftStep_adv input i
      simp only [utftFinalF, if_pos hlt]
      exact ih input (i + (utftStep input i).2) (by omega)
    · simp only [utftFinalF, if_neg hlt]
      omega

/-- Claim C1: 4-byte encode branch. The claim states that the four payload
fields are bits 20..18, 17..12, 11..6 and 5..0 of the code point, but the
source masks drop bits 20..14: at the code point 0x1D11E of the worked
example in the source comments the branch produces the byte 0x81 in second
position, while the stated bit pattern gives 0x9D, so the claimed pattern is
refuted at this input. -/
theorem C1_encode4_drops_high_bits :
    utf8Encode 0x1D11E = [0xF0, 0x81, 0x84, 0x9E] ∧
    utf8Encode4Spec 0x1D11E = [0xF0, 0x9D, 0x84, 0x9E] ∧
    utf8Encode 0x1D11E ≠ utf8Encode4Spec 0x1D11E := by
  decide

/-- Claim C2: the decoder maps the input 9B C3 A2 9E to F0 81 84 9E and not
to the UTF-8 encoding F0 9D 84 9E of U+1D11E stated by the claim and by the
worked example in the source comments. -/
theorem C2_clef_example :
    utft_to_utf8 [0x9B, 0xC3, 0xA2, 0x9E] = [0xF0, 0x81, 0x84, 0x9E] ∧
    utft_to_utf8 [0x9B, 0xC3, 0xA2, 0x9E] ≠ [0xF0, 0x9D, 0x84, 0x9E] := by
  decide

/-- Claim C4: decoding a single ASCII byte is the identity and the cursor
advances by exactly 1. -/
theorem C4_ascii_identity :
    ∀ b : Nat, b < 0x80 →
      utft_to_utf8 [b] = [b] ∧ utftFinal [b] = 1 ∧ (utftStep [b] 0).2 = 1 := by
  decide

/-- Witness for C4 at the byte 0x41. -/
theorem C4_ascii_identity_witness :
    0x41 < 0x80 ∧
      (utft_to_utf8 [0x41] = [0x41] ∧ utftFinal [0x41] = 1 ∧ (utftStep [0x41] 0).2 = 1) :=
  ⟨by decide, C4_ascii_identity 0x41 (by decide)⟩

/-- Claim C6 counterexample: on the input consisting of the single byte 0x80
the loop terminates with the cursor at 2, which is not the input length 1,
so the loop does not terminate with the cursor equal to N. -/
theorem C6_counterexample :
    utftFinal [0x80] = 2 ∧ utftFinal [0x80] ≠ [0x80].length := by
  decide

/-- Claim C6 as amended: every iteration advances the cursor by exactly 1, 2
or 4, and the (total, hence terminating) loop stops with the cursor at or
past the input length, i.e. exactly when all input bytes are consumed. -/
theorem C6_amended_termination :
    ∀ input : List Nat,
      (∀ i, (utftStep input i).2 = 1 ∨ (utftStep input i).2 = 2 ∨ (utftStep input i).2 = 4)
      ∧ input.length ≤ utftFinal input :=
  fun input =>
    ⟨fun i => utftStep_adv input i, utftFinalF_ge input.length input 0 (by omega)⟩

/-- Unfolded form of the step at a sentinel byte. -/
theorem utftStep_sentinel (input : List Nat) (i : Nat) (hb : input.getD i 0 = 0x9B) :
    utftStep input i =
      (utf8Encode ((utftPayload (input.getD (i + 1) 0) (input.getD (i + 2) 0) (input.getD (i + 3) 0)
        + (2 ^ 64 - 0x0F0000)) % 2 ^ 64), 4) := by
  simp only [utftStep]
  rw [hb, if_pos rfl]

/-- Unfolded form of the step at a high bit non sentinel byte. -/
theorem utftStep_highbit (input : List Nat) (i : Nat)
    (hs : input.getD i 0 ≠ 0x9B) (hh : input.getD i 0 &&& (1 <<< 7) ≠ 0) :
    utftStep input i =
      ([0xC0 ||| ((input.getD i 0 &&& 0x7C0) >>> 6), (0x02 <<< 6) ||| (input.getD i 0 &&& 0x3F)], 2) := by
  simp only [utftStep]
  rw [if_neg hs, if_pos hh]

/-- Unfolded form of the step at an ASCII byte. -/
theorem utftStep_ascii (input : List Nat) (i : Nat)
    (hs : input.getD i 0 ≠ 0x9B) (hh : ¬ input.getD i 0 &&& (1 <<< 7) ≠ 0) :
    utftStep input i = ([input.getD i 0], 1) := by
  simp only [utftStep]
  rw [if_neg hs, if_neg hh]

/-- Unfolded form of the code point view at a sentinel byte. -/
theorem utftDecodeCP_sentinel (input : List Nat) (i : Nat) (hb : input.getD i 0 = 0x9B) :
    utftDecodeCP input i =
      ((utftPayload (input.getD (i + 1) 0) (input.getD (i + 2) 0) (input.getD (i + 3) 0)
        + (2 ^ 64 - 0x0F0000)) % 2 ^ 64, 4) := by
  simp only [utftDecodeCP]
  rw [hb, if_pos rfl]

/-- Claim C3 counterexample: on the sentinel unit 9B 80 80 80 the payload is
0, so the code point claimed by the formula payload minus 0x0F0000 would be
0, but the code computes the wrapped unsigned value instead, and the emitted
unit differs from the encoding of 0. -/
theorem C3_counterexample :
    (utftDecodeCP [0x9B, 0x80, 0x80, 0x80] 0).1 ≠ utftPayload 0x80 0x80 0x80 - 0x0F0000
    ∧ utftStep [0x9B, 0x80, 0x80, 0x80] 0 ≠
        (utf8Encode (utftPayload 0x80 0x80 0x80 - 0x0F0000), 4) := by
  decide

/-- Claim C3 as amended: at a sentinel byte the decoder reads the next three
bytes, concatenates their low 7 bits MSB first, and, provided that payload
is at least 0x0F0000 (so the unsigned subtraction does not wrap), the code
point is payload minus 0x0F0000 and the cursor advances by exactly 4. -/
theorem C3_sentinel_decode (input : List Nat) (i : Nat)
    (hb : input.getD i 0 = 0x9B)
    (hpay : 0x0F0000 ≤ utftPayload (input.getD (i + 1) 0) (input.getD (i + 2) 0) (input.getD (i + 3) 0)) :
    utftDecodeCP input i =
      (utftPayload (input.getD (i + 1) 0) (input.getD (i + 2) 0) (input.getD (i + 3) 0) - 0x0F0000, 4)
    ∧ utftStep input i =
      (utf8Encode (utftPayload (input.getD (i + 1) 0) (input.getD (i + 2) 0) (input.getD (i + 3) 0) - 0x0F0000), 4) := by
  have hlt := utftPayload_lt (input.getD (i + 1) 0) (input.getD (i + 2) 0) (input.getD (i + 3) 0)
  have hmod : (utftPayload (input.getD (i + 1) 0) (input.getD (i + 2) 0) (input.getD (i + 3) 0)
      + (2 ^ 64 - 0x0F0000)) % 2 ^ 64
      = utftPayload (input.getD (i + 1) 0) (input.getD (i + 2) 0) (input.getD (i + 3) 0)
        - 0x0F0000 := by
    omega
  constructor
  · rw [utftDecodeCP_sentinel input i hb, hmod]
  · rw [utftStep_sentinel input i hb, hmod]

/-- Witness for the amended C3 at the worked example 9B BC 81 E7. -/
theorem C3_sentinel_decode_witness :
    [0x9B, 0xBC, 0x81, 0xE7].getD 0 0 = 0x9B
    ∧ 0x0F0000 ≤ utftPayload ([0x9B, 0xBC, 0x81, 0xE7].getD 1 0)
        ([0x9B, 0xBC, 0x81, 0xE7].getD 2 0) ([0x9B, 0xBC, 0x81, 0xE7].getD 3 0)
    ∧ utftDecodeCP [0x9B, 0xBC, 0x81, 0xE7] 0 =
        (utftPayload ([0x9B, 0xBC, 0x81, 0xE7].getD 1 0)
          ([0x9B, 0xBC, 0x81, 0xE7].getD 2 0) ([0x9B, 0xBC, 0x81, 0xE7].getD 3 0) - 0x0F0000, 4) :=
  ⟨by decide, by decide, (C3_sentinel_decode [0x9B, 0xBC, 0x81, 0xE7] 0 (by decide) (by decide)).1⟩

/-- Claim C5: at a high bit byte other than the sentinel, the byte itself is
the code point, the emitted bytes are its standard 2-byte UTF-8 encoding,
the cursor advances by exactly 2, and the step does not depend on the byte
at the following position. -/
theorem C5_highbit_twobyte (input : List Nat) (i b : Nat)
    (hb : input.getD i 0 = b) (hbyte : b < 256)
    (hhigh : b &&& (1 <<< 7) ≠ 0) (hsent : b ≠ 0x9B) :
    utftStep input i = ([0xC0 + b / 64, 0x80 + b % 64], 2)
    ∧ ∀ v : Nat, utftStep (input.set (i + 1) v) i = utftStep input i := by
  have hform : ∀ x : Nat, x < 256 →
      0xC0 ||| ((x &&& 0x7C0) >>> 6) = 0xC0 + x / 64
      ∧ (0x02 <<< 6) ||| (x &&& 0x3F) = 0x80 + x % 64 := by
    decide
  constructor
  · simp only [utftStep, hb]
    rw [if_neg hsent, if_pos hhigh]
    rw [(hform b hbyte).1, (hform b hbyte).2]
  · intro v
    have hgd : (input.set (i + 1) v).getD i 0 = b := by
      rw [List.getD_eq_getElem?_getD, List.getElem?_set_ne (by omega : i + 1 ≠ i),
        ← List.getD_eq_getElem?_getD, hb]
    simp only [utftStep, hgd, hb]
    rw [if_neg hsent, if_neg hsent]

/-- Witness for C5 at the two byte input C3 00, with the skipped byte also
replaced by 7A. -/
theorem C5_highbit_twobyte_witness :
    utftStep [0xC3, 0x00] 0 = ([0xC0 + 0xC3 / 64, 0x80 + 0xC3 % 64], 2)
    ∧ utftStep ([0xC3, 0x00].set 1 0x7A) 0 = utftStep [0xC3, 0x00] 0 :=
  ⟨(C5_highbit_twobyte [0xC3, 0x00] 0 0xC3 (by decide) (by decide) (by decide) (by decide)).1,
   (C5_highbit_twobyte [0xC3, 0x00] 0 0xC3 (by decide) (by decide) (by decide) (by decide)).2 0x7A⟩

/-- Claim C10: when the sentinel unit payload is below 0x0F0000, the
unsigned subtraction wraps modulo 2 to the 64 (the width of unsigned long
on the reference platform), the resulting code point is far above 0x10FFFF,
and the unit goes through the 4-byte encode branch. -/
theorem C10_underflow_wraps (input : List Nat) (i : Nat)
    (hb : input.getD i 0 = 0x9B)
    (hlt : utftPayload (input.getD (i + 1) 0) (input.getD (i + 2) 0) (input.getD (i + 3) 0) < 0x0F0000) :
    0x10FFFF < (utftDecodeCP input i).1
    ∧ utftStep input i = (utf8Encode ((utftDecodeCP input i).1), 4)
    ∧ (utf8Encode ((utftDecodeCP input i).1)).length = 4 := by
  have hcp : utftDecodeCP input i =
      ((utftPayload (input.getD (i + 1) 0) (input.getD (i + 2) 0) (input.getD (i + 3) 0)
        + (2 ^ 64 - 0x0F0000)) % 2 ^ 64, 4) :=
    utftDecodeCP_sentinel input i hb
  have hstep : utftStep input i =
      (utf8Encode ((utftPayload (input.getD (i + 1) 0) (input.getD (i + 2) 0) (input.getD (i + 3) 0)
        + (2 ^ 64 - 0x0F0000)) % 2 ^ 64), 4) :=
    utftStep_sentinel input i hb
  have hmod : (utftPayload (input.getD (i + 1) 0) (input.getD (i + 2) 0) (input.getD (i + 3) 0)
      + (2 ^ 64 - 0x0F0000)) % 2 ^ 64
      = utftPayload (input.getD (i + 1) 0) (input.getD (i + 2) 0) (input.getD (i + 3) 0)
        + (2 ^ 64 - 0x0F0000) := by
    omega
  refine ⟨?_, ?_, ?_⟩
  · rw [hcp, hmod]
    show 0x10FFFF < utftPayload (input.getD (i + 1) 0) (input.getD (i + 2) 0) (input.getD (i + 3) 0)
      + (2 ^ 64 - 0x0F0000)
    omega
  · rw [hstep, hcp]
  · rw [hcp, hmod]
    show (utf8Encode (utftPayload (input.getD (i + 1) 0) (input.getD (i + 2) 0) (input.getD (i + 3) 0)
      + (2 ^ 64 - 0x0F0000))).length = 4
    simp only [utf8Encode]
    rw [if_neg (by omega), if_neg (by omega), if_neg (by omega)]
    rfl

/-- Witness for C10 at the sentinel unit 9B 80 80 80, whose payload is 0. -/
theorem C10_underflow_wraps_witness :
    utftPayload ([0x9B, 0x80, 0x80, 0x80].getD 1 0) ([0x9B, 0x80, 0x80, 0x80].getD 2 0)
      ([0x9B, 0x80, 0x80, 0x80].getD 3 0) < 0x0F0000
    ∧ 0x10FFFF < (utftDecodeCP [0x9B, 0x80, 0x80, 0x80] 0).1 :=
  ⟨by decide, (C10_underflow_wraps [0x9B, 0x80, 0x80, 0x80] 0 (by decide) (by decide)).1⟩

/-- Masking an encoded payload byte with 127 recovers its 7 bit field. -/
theorem encoded_byte_field (m : Nat) : (0x80 ||| (m &&& 0x7F)) &&& 127 = m % 128 := by
  have h1 : m &&& 0x7F = m % 128 := and_127_eq_mod m
  have h2 : m % 128 < 128 := Nat.mod_lt _ (by norm_num)
  rw [h1, show (0x80 : Nat) = 1 * 128 from by norm_num, mul128_lor h2, and_127_eq_mod]
  omega

/-- Reassembling the three 7 bit fields of a 21 bit value through the
sentinel payload expression gives the value back. -/
theorem utftPayload_encode (v : Nat) (hv : v < 2097152) :
    utftPayload (0x80 ||| ((v >>> 14) &&& 0x7F)) (0x80 ||| ((v >>> 7) &&& 0x7F))
      (0x80 ||| (v &&& 0x7F)) = v := by
  rw [utftPayload_eq, encoded_byte_field, encoded_byte_field, encoded_byte_field,
    Nat.shiftRight_eq_div_pow, Nat.shiftRight_eq_div_pow,
    show (2:Nat) ^ 14 = 16384 from by norm_num, show (2:Nat) ^ 7 = 128 from by norm_num]
  omega

/-- Code point view of the sentinel branch on an explicitly given unit. -/
theorem utftDecodeCP_cons_sentinel (b1 b2 b3 : Nat) (rest : List Nat) :
    utftDecodeCP (0x9B :: b1 :: b2 :: b3 :: rest) 0 =
      ((utftPayload b1 b2 b3 + (2 ^ 64 - 0x0F0000)) % 2 ^ 64, 4) := by
  simp only [utftDecodeCP]
  rw [show (0x9B :: b1 :: b2 :: b3 :: rest).getD 0 0 = 0x9B from rfl, if_pos rfl]
  rw [show (0x9B :: b1 :: b2 :: b3 :: rest).getD (0 + 1) 0 = b1 from rfl,
    show (0x9B :: b1 :: b2 :: b3 :: rest).getD (0 + 2) 0 = b2 from rfl,
    show (0x9B :: b1 :: b2 :: b3 :: rest).getD (0 + 3) 0 = b3 from rfl]

/-- Claim C8: encoding a code point to UTF-T following the scheme and then
applying the unit decode step of the transcoder reproduces the code point
exactly, with the cursor advance equal to the unit length. -/
theorem C8_roundtrip (c : Nat) (hle : c ≤ 0x10FFFF) (hsurr : ¬ (0xD800 ≤ c ∧ c ≤ 0xDFFF)) :
    utftDecodeCP (utftEncode c) 0 = (c, (utftEncode c).length) := by
  by_cases hc : c < 0x80
  · have henc : utftEncode c = [c] := by
      simp only [utftEncode]
      rw [if_pos hc]
    rw [henc]
    have hgd : [c].getD 0 0 = c := rfl
    have hh : ¬ c &&& (1 <<< 7) ≠ 0 := by
      simp only [ne_eq, not_not]
      rw [Nat.one_shiftLeft, Nat.and_two_pow,
        Nat.testBit_lt_two_pow (show c < 2 ^ 7 by norm_num; omega)]
      rfl
    simp only [utftDecodeCP]
    rw [hgd, if_neg (show ¬ c = 0x9B from by omega), if_neg hh]
    rfl
  · have henc : utftEncode c =
        [0x9B, 0x80 ||| (((c + 0x0F0000) >>> 14) &&& 0x7F),
          0x80 ||| (((c + 0x0F0000) >>> 7) &&& 0x7F),
          0x80 ||| ((c + 0x0F0000) &&& 0x7F)] := by
      simp only [utftEncode]
      rw [if_neg hc]
    rw [henc, utftDecodeCP_cons_sentinel, utftPayload_encode _ (by omega)]
    have hm : (c + 0x0F0000 + (2 ^ 64 - 0x0F0000)) % 2 ^ 64 = c := by omega
    rw [hm]
    rfl

/-- Witness for C8 at the code point U+20AC. -/
theorem C8_roundtrip_witness :
    0x20AC ≤ 0x10FFFF
    ∧ utftDecodeCP (utftEncode 0x20AC) 0 = (0x20AC, (utftEncode 0x20AC).length) :=
  ⟨by decide, C8_roundtrip 0x20AC (by decide) (by decide)⟩

/-- Congruence for one step: the step only reads the byte at the cursor,
plus the three following bytes when the cursor byte is the sentinel. -/
theorem utftStep_congr (l1 l2 : List Nat) (i : Nat)
    (h0 : l2.getD i 0 = l1.getD i 0)
    (hrest : l1.getD i 0 = 0x9B → ∀ j, i + 1 ≤ j → j ≤ i + 3 → l2.getD j 0 = l1.getD j 0) :
    utftStep l2 i = utftStep l1 i := by
  by_cases hs : l1.getD i 0 = 0x9B
  · have h1 := hrest hs (i + 1) (by omega) (by omega)
    have h2 := hrest hs (i + 2) (by omega) (by omega)
    have h3 := hrest hs (i + 3) (by omega) (by omega)
    simp only [utftStep, h0, h1, h2, h3]
  · simp only [utftStep, h0]
    rw [if_neg hs, if_neg hs]

/-- Runs of the loop do not depend on the fuel, as long as the fuel covers
the remaining input. -/
theorem utftLoopF_congr : ∀ (f1 f2 : Nat) (input : List Nat) (i : Nat),
    input.length - i ≤ f1 → input.length - i ≤ f2 →
    utftLoopF f1 input i = utftLoopF f2 input i := by
  intro f1
  induction f1 with
  | zero =>
    intro f2 input i h1 h2
    cases f2 with
    | zero => rfl
    | succ f =>
      have hge : ¬ i < input.length := by omega
      simp only [utftLoopF, if_neg hge]
  | succ f ih =>
    intro f2 input i h1 h2
    cases f2 with
    | zero =>
      have hge : ¬ i < input.length := by omega
      simp only [utftLoopF, if_neg hge]
    | succ f2 =>
      by_cases hlt : i < input.length
      · have hadv := utftStep_adv input i
        simp only [utftLoopF, if_pos hlt]
        rw [ih f2 input (i + (utftStep input i).2) (by omega) (by omega)]
      · simp only [utftLoopF, if_neg hlt]

/-- Runs started at cursor i agree on two inputs of the same length that
agree from position i on. -/
theorem utftLoopF_agree : ∀ (fuel : Nat) (l1 l2 : List Nat) (i : Nat),
    l2.length = l1.length → (∀ j, i ≤ j → l2.getD j 0 = l1.getD j 0) →
    utftLoopF fuel l2 i = utftLoopF fuel l1 i := by
  intro fuel
  induction fuel with
  | zero =>
    intro l1 l2 i h1 h2
    rfl
  | succ f ih =>
    intro l1 l2 i hlen hag
    have hstep : utftStep l2 i = utftStep l1 i :=
      utftStep_congr l1 l2 i (hag i (by omega)) (fun _ j hj1 hj2 => hag j (by omega))
    by_cases hlt : i < l1.length
    · have hlt2 : i < l2.length := by omega
      simp only [utftLoopF, if_pos hlt, if_pos hlt2, hstep]
      exact congrArg (fun t => (utftStep l1 i).1 ++ t)
        (ih l1 l2 (i + (utftStep l1 i).2) hlen (fun j hj => hag j (by omega)))
    · have hlt2 : ¬ i < l2.length := by omega
      simp only [utftLoopF, if_neg hlt, if_neg hlt2]

/-- Cursor positions in a trace are at least the starting cursor. -/
theorem utftTraceF_ge : ∀ (fuel : Nat) (input : List Nat) (i p : Nat),
    p ∈ utftTraceF fuel input i → i ≤ p := by
  intro fuel
  induction fuel with
  | zero =>
    intro input i p h
    exact absurd h (List.not_mem_nil p)
  | succ f ih =>
    intro input i p h
    by_cases hlt : i < input.length
    · simp only [utftTraceF, if_pos hlt] at h
      rcases List.mem_cons.mp h with rfl | h2
      · omega
      · have := ih input (i + (utftStep input i).2) p h2
        have hadv := utftStep_adv input i
        omega
    · simp only [utftTraceF, if_neg hlt] at h
      exact absurd h (List.not_mem_nil p)

/-- Unfolding of the final cursor run at a live cursor. -/
theorem utftFinalF_succ_lt (f : Nat) (input : List Nat) (i : Nat) (h : i < input.length) :
    utftFinalF (f + 1) input i = utftFinalF f input (i + (utftStep input i).2) := by
  simp only [utftFinalF, if_pos h]

/-- Core of claim C9: if some visited cursor position p holds a high bit
non sentinel byte, then replacing the byte at position p + 1 does not change
the output of the loop. -/
theorem utftLoopF_skip (v : Nat) : ∀ (fuel : Nat) (input : List Nat) (i p : Nat),
    p ∈ utftTraceF fuel input i →
    input.getD p 0 &&& (1 <<< 7) ≠ 0 → input.getD p 0 ≠ 0x9B →
    utftLoopF fuel (input.set (p + 1) v) i = utftLoopF fuel input i := by
  intro fuel
  induction fuel with
  | zero =>
    intro input i p hmem hhigh hsent
    rfl
  | succ f ih =>
    intro input i p hmem hhigh hsent
    have hlen : (input.set (p + 1) v).length = input.length := List.length_set input (p + 1) v
    by_cases hlt : i < input.length
    · have hlt2 : i < (input.set (p + 1) v).length := by omega
      simp only [utftTraceF, if_pos hlt] at hmem
      rcases List.mem_cons.mp hmem with rfl | hmem2
      · have hgd : (input.set (p + 1) v).getD p 0 = input.getD p 0 := by
          rw [List.getD_eq_getElem?_getD, List.getElem?_set_ne (by omega : p + 1 ≠ p),
            ← List.getD_eq_getElem?_getD]
        have hstep : utftStep (input.set (p + 1) v) p = utftStep input p := by
          simp only [utftStep, hgd]
          rw [if_neg hsent, if_neg hsent]
        have hadv2 : (utftStep input p).2 = 2 := by
          rw [utftStep_highbit input p hsent hhigh]
        simp only [utftLoopF, if_pos hlt, if_pos hlt2, hstep]
        refine congrArg (fun t => (utftStep input p).1 ++ t) ?_
        rw [hadv2]
        exact utftLoopF_agree f input (input.set (p + 1) v) (p + 2) hlen (fun j hj => by
          rw [List.getD_eq_getElem?_getD, List.getElem?_set_ne (by omega : p + 1 ≠ j),
            ← List.getD_eq_getElem?_getD])
      · have hip : i + (utftStep input i).2 ≤ p := utftTraceF_ge f input _ p hmem2
        have hadv := utftStep_adv input i
        have hstep : utftStep (input.set (p + 1) v) i = utftStep input i := by
          apply utftStep_congr
          · rw [List.getD_eq_getElem?_getD, List.getElem?_set_ne (by omega : p + 1 ≠ i),
              ← List.getD_eq_getElem?_getD]
          · intro hs j hj1 hj2
            have h4 : (utftStep input i).2 = 4 := by rw [utftStep_sentinel input i hs]
            rw [List.getD_eq_getElem?_getD, List.getElem?_set_ne (by omega : p + 1 ≠ j),
              ← List.getD_eq_getElem?_getD]
        simp only [utftLoopF, if_pos hlt, if_pos hlt2, hstep]
        exact congrArg (fun t => (utftStep input i).1 ++ t)
          (ih input (i + (utftStep input i).2) p hmem2 hhigh hsent)
    · simp only [utftTraceF, if_neg hlt] at hmem
      exact absurd hmem (List.not_mem_nil p)

/-- Claim C9: when a visited cursor position holds a high bit non sentinel
byte, the byte at the following position is skipped without being read, so
replacing it with any value leaves the output of the call unchanged. -/
theorem C9_skipped_byte_ignored (input : List Nat) (p v : Nat)
    (hmem : p ∈ utftTrace input)
    (hhigh : input.getD p 0 &&& (1 <<< 7) ≠ 0)
    (hsent : input.getD p 0 ≠ 0x9B) :
    utft_to_utf8 (input.set (p + 1) v) = utft_to_utf8 input := by
  unfold utftTrace at hmem
  unfold utft_to_utf8
  rw [List.length_set]
  exact utftLoopF_skip v input.length input 0 p hmem hhigh hsent

/-- Witness for C9 on the input C3 FF 41, replacing the skipped byte FF at
position 1 by 00. -/
theorem C9_skipped_byte_ignored_witness :
    0 ∈ utftTrace [0xC3, 0xFF, 0x41]
    ∧ utft_to_utf8 ([0xC3, 0xFF, 0x41].set 1 0x00) = utft_to_utf8 [0xC3, 0xFF, 0x41] :=
  ⟨by decide, C9_skipped_byte_ignored [0xC3, 0xFF, 0x41] 0 0x00 (by decide) (by decide) (by decide)⟩

/-- Steps taken past a left part of an appended input only see the right
part. -/
theorem utftStep_append_right (l1 l2 : List Nat) (k : Nat) :
    utftStep (l1 ++ l2) (l1.length + k) = utftStep l2 k := by
  have h0 : (l1 ++ l2).getD (l1.length + k) 0 = l2.getD k 0 := by
    rw [List.getD_append_right _ _ _ _ (by omega),
      show l1.length + k - l1.length = k from by omega]
  have h1 : (l1 ++ l2).getD (l1.length + k + 1) 0 = l2.getD (k + 1) 0 := by
    rw [List.getD_append_right _ _ _ _ (by omega),
      show l1.length + k + 1 - l1.length = k + 1 from by omega]
  have h2 : (l1 ++ l2).getD (l1.length + k + 2) 0 = l2.getD (k + 2) 0 := by
    rw [List.getD_append_right _ _ _ _ (by omega),
      show l1.length + k + 2 - l1.length = k + 2 from by omega]
  have h3 : (l1 ++ l2).getD (l1.length + k + 3) 0 = l2.getD (k + 3) 0 := by
    rw [List.getD_append_right _ _ _ _ (by omega),
      show l1.length + k + 3 - l1.length = k + 3 from by omega]
  simp only [utftStep, h0, h1, h2, h3]

/-- Runs started past a left part of an appended input are runs on the
right part. -/
theorem utftLoopF_append_right : ∀ (fuel : Nat) (l1 l2 : List Nat) (k : Nat),
    utftLoopF fuel (l1 ++ l2) (l1.length + k) = utftLoopF fuel l2 k := by
  intro fuel
  induction fuel with
  | zero =>
    intro l1 l2 k
    rfl
  | succ f ih =>
    intro l1 l2 k
    by_cases hlt : k < l2.length
    · have hlt2 : l1.length + k < (l1 ++ l2).length := by
        rw [List.length_append]
        omega
      simp only [utftLoopF, if_pos hlt, if_pos hlt2, utftStep_append_right]
      rw [show l1.length + k + (utftStep l2 k).2 = l1.length + (k + (utftStep l2 k).2) from by omega]
      rw [ih l1 l2 (k + (utftStep l2 k).2)]
    · have hlt2 : ¬ l1.length + k < (l1 ++ l2).length := by
        rw [List.length_append]
        omega
      simp only [utftLoopF, if_neg hlt, if_neg hlt2]

/-- Runs over an appended input split at the boundary, provided the run on
the left part finishes exactly at its length. -/
theorem utftLoopF_append_left : ∀ (fuel : Nat) (l1 l2 : List Nat) (i : Nat),
    i ≤ l1.length → utftFinalF fuel l1 i = l1.length →
    utftLoopF (fuel + l2.length) (l1 ++ l2) i = utftLoopF fuel l1 i ++ utftLoopF l2.length l2 0 := by
  intro fuel
  induction fuel with
  | zero =>
    intro l1 l2 i hle hfin
    simp only [utftFinalF] at hfin
    rw [show utftLoopF 0 l1 i = ([] : List Nat) from rfl, List.nil_append,
      show (0 : Nat) + l2.length = l2.length from by omega, hfin]
    have hright := utftLoopF_append_right l2.length l1 l2 0
    rw [Nat.add_zero] at hright
    exact hright
  | succ f ih =>
    intro l1 l2 i hle hfin
    by_cases hlt : i < l1.length
    · have hfin2 : utftFinalF f l1 (i + (utftStep l1 i).2) = l1.length := by
        rw [← utftFinalF_succ_lt f l1 i hlt]
        exact hfin
      have hadv := utftStep_adv l1 i
      have hle2 : i + (utftStep l1 i).2 ≤ l1.length := by
        by_contra hgt
        push_neg at hgt
        rw [utftFinalF_stop f l1 _ (by omega)] at hfin2
        omega
      have hstep : utftStep (l1 ++ l2) i = utftStep l1 i := by
        apply utftStep_congr
        · exact List.getD_append _ _ _ _ hlt
        · intro hs j hj1 hj2
          have h4 : (utftStep l1 i).2 = 4 := by rw [utftStep_sentinel l1 i hs]
          exact List.getD_append _ _ _ _ (by omega)
      have hlt2 : i < (l1 ++ l2).length := by
        rw [List.length_append]
        omega
      rw [show f + 1 + l2.length = (f + l2.length) + 1 from by omega]
      simp only [utftLoopF, if_pos hlt, if_pos hlt2, hstep]
      rw [List.append_assoc]
      exact congrArg (fun t => (utftStep l1 i).1 ++ t)
        (ih l1 l2 (i + (utftStep l1 i).2) hle2 hfin2)
    · have hi : i = l1.length := by omega
      subst hi
      have hnil : utftLoopF (f + 1) l1 l1.length = [] := by
        simp only [utftLoopF, if_neg hlt]
      rw [hnil, List.nil_append]
      have hright := utftLoopF_append_right (f + 1 + l2.length) l1 l2 0
      rw [show l1.length + 0 = l1.length from rfl] at hright
      rw [hright]
      exact utftLoopF_congr _ _ l2 0 (by omega) (by omega)

/-- Claim C7 counterexample: the input 80 is a truncated 2-byte unit, so
decoding 80 followed by 41 is not the concatenation of the two decodes. -/
theorem C7_counterexample :
    utft_to_utf8 ([0x80] ++ [0x41]) ≠ utft_to_utf8 [0x80] ++ utft_to_utf8 [0x41] := by
  decide

/-- Claim C7 as amended: when the first input is a concatenation of
complete UTF-T units, that is when its own decode run finishes with the
cursor exactly at its length, decoding the concatenation is the
concatenation of the decodes. -/
theorem C7_concat_complete_units (l1 l2 : List Nat) (h : utftFinal l1 = l1.length) :
    utft_to_utf8 (l1 ++ l2) = utft_to_utf8 l1 ++ utft_to_utf8 l2 := by
  unfold utftFinal at h
  unfold utft_to_utf8
  rw [List.length_append]
  exact utftLoopF_append_left l1.length l1 l2 0 (by omega) h

/-- Witness for the amended C7 on the inputs 41 and 9B BC 81 E7. -/
theorem C7_concat_complete_units_witness :
    utftFinal [0x41] = [0x41].length
    ∧ utft_to_utf8 ([0x41] ++ [0x9B, 0xBC, 0x81, 0xE7]) =
        utft_to_utf8 [0x41] ++ utft_to_utf8 [0x9B, 0xBC, 0x81, 0xE7] :=
  ⟨by decide, C7_concat_complete_units [0x41] [0x9B, 0xBC, 0x81, 0xE7] (by decide)⟩

/-- Remaining worked examples of the spec: the letter A, the cedilla c and
the euro sign, plus the empty input. -/
theorem utft_worked_examples :
    utft_to_utf8 [0x41] = [0x41]
    ∧ utft_to_utf8 [0x9B, 0xBC, 0x81, 0xE7] = [0xC3, 0xA7]
    ∧ utft_to_utf8 [0x9B, 0xBC, 0xC1, 0xAC] = [0xE2, 0x82, 0xAC]
    ∧ utft_to_utf8 [] = [] := by
  decide

end UTFT
